import Mathlib

/-!
Verification of the SkillSync role-matching system (HackRU F25).

The development shallowly embeds two bodies of code:

* the Next.js frontend components (`ProjectOverview`, `TeamInputForm`,
  `RoleMatchResults`), translated function by function from the JSX source;
* the FastAPI matching backend (`role_matcher.py`), which is not part of the
  frontend sources; those definitions are modelled from the specification
  and are marked `Modelled from the spec:` in their doc comments.

JavaScript strings are modelled as lists of characters, JavaScript values
flowing through the duck-typed member records as the inductive `JSVal`,
and real-valued scores as `Real`.
-/

/-- A JavaScript value as it appears in the duck-typed member records handled
by the frontend: null or undefined, a string, an array, or a plain object
modelled as an association list of key-value pairs.  Strings are lists of
characters so that trimming and splitting can be reasoned about directly. -/
inductive JSVal where
  | null : JSVal
  | str : List Char → JSVal
  | arr : List JSVal → JSVal
  | obj : List (List Char × JSVal) → JSVal

/-- JavaScript truthiness restricted to the values of `JSVal`: null and
undefined are falsy, a string is truthy iff it is non-empty, arrays and
objects are always truthy (`[]` is truthy in JavaScript). -/
def jsTruthy : JSVal → Bool
  | .null => false
  | .str s => !s.isEmpty
  | .arr _ => true
  | .obj _ => true

mutual

/-- JavaScript `String(v)` conversion used by `uniqueStrings` in
`ProjectOverview.jsx`: a string converts to itself, `null` to `"null"`,
an array to its comma-joined elements, an object to `"[object Object]"`. -/
def jsString : JSVal → List Char
  | .null => "null".data
  | .str s => s
  | .arr xs => jsStringElems xs
  | .obj _ => "[object Object]".data

/-- Comma-joined rendering of array elements for `jsString`. -/
def jsStringElems : List JSVal → List Char
  | [] => []
  | [v] => jsStringInner v
  | v :: vs => jsStringInner v ++ ',' :: jsStringElems vs

/-- Element conversion inside an array join: JavaScript renders `null` as
the empty string inside `Array.prototype.join`. -/
def jsStringInner : JSVal → List Char
  | .null => []
  | .str s => s
  | .arr xs => jsStringElems xs
  | .obj _ => "[object Object]".data

end

mutual

/-- `JSON.stringify` as applied by `toArray` in `ProjectOverview.jsx` to
non-string object values (string escaping elided: strings are quoted
verbatim). -/
def jsonStringify : JSVal → List Char
  | .null => "null".data
  | .str s => '"' :: s ++ ['"']
  | .arr xs => '[' :: jsonStringifyElems xs ++ [']']
  | .obj kvs => Char.ofNat 123 :: jsonStringifyFields kvs ++ [Char.ofNat 125]

/-- Comma-separated stringified array elements. -/
def jsonStringifyElems : List JSVal → List Char
  | [] => []
  | [v] => jsonStringify v
  | v :: vs => jsonStringify v ++ ',' :: jsonStringifyElems vs

/-- Comma-separated stringified object fields. -/
def jsonStringifyFields : List (List Char × JSVal) → List Char
  | [] => []
  | [(k, v)] => '"' :: k ++ '"' :: ':' :: jsonStringify v
  | (k, v) :: kvs => ('"' :: k ++ '"' :: ':' :: jsonStringify v) ++ ',' :: jsonStringifyFields kvs

end

/-- `toArray` from `ProjectOverview.jsx`: a falsy value gives `[]`, an array
is returned as is, a string is wrapped in a singleton, and an object has its
values flattened one level with non-string results passed through
`JSON.stringify`. -/
def toArray : JSVal → List JSVal
  | .null => []
  | .str s => if s.isEmpty then [] else [.str s]
  | .arr xs => xs
  | .obj kvs =>
    let vals := (kvs.map Prod.snd).flatMap (fun v =>
      match v with
      | .arr ys => ys
      | v => [v])
    vals.map (fun v =>
      match v with
      | .str s => JSVal.str s
      | v => JSVal.str (jsonStringify v))

/-- Property access `a[key]` on a `JSVal`; only objects expose named keys,
any other receiver yields undefined (`none`). -/
def jsIndex : JSVal → List Char → Option JSVal
  | .obj kvs, k => (kvs.find? (fun kv => kv.1 == k)).map Prod.snd
  | _, _ => none

/-- One step of the `reduce` inside `getPath` in `ProjectOverview.jsx`:
`acc && acc[key] != null ? acc[key] : undefined`. -/
def stepPath (acc : Option JSVal) (key : List Char) : Option JSVal :=
  match acc with
  | none => none
  | some a =>
    if jsTruthy a then
      match jsIndex a key with
      | some .null => none
      | some x => some x
      | none => none
    else none

/-- `getPath` from `ProjectOverview.jsx`: split the dotted path and walk the
object, collapsing null and undefined intermediates to undefined. -/
def getPath (v : JSVal) (path : List Char) : Option JSVal :=
  (path.splitOn '.').foldl stepPath (some v)

/-- `firstNonEmptyArray` from `ProjectOverview.jsx`: try each path in order,
coerce the value found there to an array, drop falsy elements, and return
the first non-empty result (or `[]`). -/
def firstNonEmptyArray (m : JSVal) : List (List Char) → List JSVal
  | [] => []
  | p :: ps =>
    let arrP := (match getPath m p with
      | some val => toArray val
      | none => []).filter jsTruthy
    if arrP.isEmpty then firstNonEmptyArray m ps else arrP

/-- Deduplication that keeps the first occurrence of each element, as
`Array.from(new Set(xs))` does in JavaScript (insertion order). -/
def dedupFirst [DecidableEq α] : List α → List α
  | [] => []
  | a :: l => a :: (dedupFirst l).filter (· ≠ a)

/-- JavaScript `String.prototype.trim` on a character list: drop whitespace
from the front, then from the back. -/
def trimChars (s : List Char) : List Char :=
  ((s.dropWhile Char.isWhitespace).reverse.dropWhile Char.isWhitespace).reverse

/-- The canonical string sequence produced inside `uniqueStrings` before
deduplication: stringify, trim, and drop empty strings
(`arr.map(v => String(v).trim()).filter(Boolean)`). -/
def canonStrings (l : List JSVal) : List (List Char) :=
  (l.map (fun v => trimChars (jsString v))).filter (fun s => !s.isEmpty)

/-- `uniqueStrings` from `ProjectOverview.jsx`:
`Array.from(new Set(arr.map(v => String(v).trim()).filter(Boolean)))`. -/
def uniqueStrings (l : List JSVal) : List (List Char) :=
  dedupFirst (canonStrings l)

/-- The path list tried for the languages category in `MemberCard`. -/
def languagesPaths : List (List Char) :=
  ["languages".data, "programming_languages".data, "programmingLanguages".data,
   "langs".data, "extracted.languages".data, "resume.languages".data,
   "skills.languages".data]

/-- Languages shown by `MemberCard` in `ProjectOverview.jsx`. -/
def memberLanguages (m : JSVal) : List (List Char) :=
  uniqueStrings (firstNonEmptyArray m languagesPaths)

/-- Technical skills shown by `MemberCard`: the seven aliased lookups are
concatenated and then deduplicated by `uniqueStrings`. -/
def memberSkills (m : JSVal) : List (List Char) :=
  uniqueStrings
    (firstNonEmptyArray m ["skills".data] ++
     firstNonEmptyArray m ["technical_skills".data] ++
     firstNonEmptyArray m ["technicalSkills".data] ++
     firstNonEmptyArray m ["extracted.skills.technical".data] ++
     firstNonEmptyArray m ["resume_skills.technical".data] ++
     firstNonEmptyArray m ["github_skills".data] ++
     firstNonEmptyArray m ["extracted.skills".data])

/-- Notable keywords shown by `MemberCard`: five aliased lookups are
concatenated and then deduplicated by `uniqueStrings`. -/
def memberKeywords (m : JSVal) : List (List Char) :=
  uniqueStrings
    (firstNonEmptyArray m ["keywords".data] ++
     firstNonEmptyArray m ["notable_keywords".data] ++
     firstNonEmptyArray m ["notableKeywords".data] ++
     firstNonEmptyArray m ["extracted.keywords".data] ++
     firstNonEmptyArray m ["resume_keywords".data])

/-- The canonicalization contract of `uniqueStrings`: the output is
duplicate-free, is an order-preserving subsequence of the stringified,
trimmed and filtered input, retains exactly the strings occurring there,
and every retained string is non-empty and trimmed. -/
def IsCanonicalFrom (raw : List JSVal) (out : List (List Char)) : Prop :=
  out.Nodup ∧ List.Sublist out (canonStrings raw) ∧
  (∀ s, s ∈ out ↔ s ∈ canonStrings raw) ∧
  (∀ s ∈ out, s ≠ [] ∧ trimChars s = s)

/-- JavaScript logical or: the left operand when truthy, else the right. -/
def jsOr (a b : JSVal) : JSVal := if jsTruthy a then a else b

/-- Plain property read `m.key`, with undefined collapsed to `JSVal.null`
(both are falsy, so the two behave identically under the `||` chains of
`normalizeMember`). -/
def jsGet (m : JSVal) (k : List Char) : JSVal := (jsIndex m k).getD .null

/-- Optional-chaining read `v?.key`: a nullish receiver short-circuits to
undefined instead of throwing. -/
def jsGetOpt (v : JSVal) (k : List Char) : JSVal :=
  match v with
  | .null => .null
  | v => jsGet v k

/-- The languages field of `normalizeMember` in `TeamInputForm.jsx`:
`m.languages || m.programming_languages || m.programmingLanguages ||
m.langs || (m.extracted?.languages) || []`. -/
def tifLanguages (m : JSVal) : JSVal :=
  jsOr (jsGet m "languages".data) (jsOr (jsGet m "programming_languages".data)
    (jsOr (jsGet m "programmingLanguages".data) (jsOr (jsGet m "langs".data)
      (jsOr (jsGetOpt (jsGet m "extracted".data) "languages".data) (.arr [])))))

/-- The skills field of `normalizeMember` in `TeamInputForm.jsx`:
`m.skills || m.technical_skills || m.technicalSkills ||
(m.extracted?.skills?.technical) || []`. -/
def tifSkills (m : JSVal) : JSVal :=
  jsOr (jsGet m "skills".data) (jsOr (jsGet m "technical_skills".data)
    (jsOr (jsGet m "technicalSkills".data)
      (jsOr (jsGetOpt (jsGetOpt (jsGet m "extracted".data) "skills".data) "technical".data)
        (.arr []))))

/-- The keywords field of `normalizeMember` in `TeamInputForm.jsx`:
`m.keywords || m.notable_keywords || m.notableKeywords ||
(m.extracted?.keywords) || []`. -/
def tifKeywords (m : JSVal) : JSVal :=
  jsOr (jsGet m "keywords".data) (jsOr (jsGet m "notable_keywords".data)
    (jsOr (jsGet m "notableKeywords".data)
      (jsOr (jsGetOpt (jsGet m "extracted".data) "keywords".data) (.arr []))))

/-- A member record whose primary `skills` key holds a present-but-empty
array while the `technical_skills` alias is non-empty. -/
def emptySkillsMember : JSVal :=
  JSVal.obj [("skills".data, JSVal.arr []),
             ("technical_skills".data, JSVal.arr [JSVal.str "Rust".data])]


/-- Value of the longest leading run of decimal digits, or `none` when the
run is empty (JavaScript `parseInt` yields NaN in that case). -/
def digitsVal (l : List Char) : Option Nat :=
  let ds := l.takeWhile Char.isDigit
  if ds.isEmpty then none
  else some (ds.foldl (fun a c => a * 10 + (c.toNat - 48)) 0)

/-- JavaScript `parseInt(s, 10)`: skip leading whitespace, read an optional
sign, then the longest run of decimal digits; `none` stands for NaN. -/
def jsParseInt (s : List Char) : Option Int :=
  match s.dropWhile Char.isWhitespace with
  | '-' :: rest => (digitsVal rest).map (fun n => -(n : Int))
  | '+' :: rest => (digitsVal rest).map (fun n => (n : Int))
  | t => (digitsVal t).map (fun n => (n : Int))

/-- The Top-K `onChange` handler of `ProjectOverview.jsx`:
`parseInt(e.target.value || '10', 10)` followed by
`Number.isFinite(v) ? Math.max(1, Math.min(100, v)) : 10`. -/
def topKOnChange (s : List Char) : Int :=
  match jsParseInt (if s.isEmpty then "10".data else s) with
  | some v => max 1 (min 100 v)
  | none => 10

/-- Modelled from the spec: the greedy pick of the assignment solver in the
backend `role_matcher.py` (not part of the frontend sources).  Scans a list
of candidate (role index, member index) pairs and keeps the pair with the
highest score; a later pair replaces the current best only when its score
is strictly greater, so the earliest maximal pair wins. -/
def pickBest [LinearOrder α] (score : Nat → Nat → α) :
    List (Nat × Nat) → Option (Nat × Nat)
  | [] => none
  | p :: ps =>
    match pickBest score ps with
    | none => some p
    | some b => if score p.1 p.2 < score b.1 b.2 then some b else some p

/-- All (role, member) index pairs in role-major order: every member of the
first remaining role, then every member of the next, and so on. -/
def pairProd : List Nat → List Nat → List (Nat × Nat)
  | [], _ => []
  | r :: rs, ms => ms.map (fun m => (r, m)) ++ pairProd rs ms

/-- Modelled from the spec: the greedy assignment loop of the backend
solver (`assign` in `role_matcher.py`, not part of the frontend sources).
Repeatedly pick the highest-scoring remaining (role, member) pair, commit
it, remove both from further consideration, and repeat until either side is
exhausted.  `fuel` bounds the number of iterations. -/
def greedyAssign [LinearOrder α] (score : Nat → Nat → α) :
    Nat → List Nat → List Nat → List (Nat × Nat)
  | 0, _, _ => []
  | fuel + 1, rs, ms =>
    match pickBest score (pairProd rs ms) with
    | none => []
    | some (r, m) => (r, m) :: greedyAssign score fuel (rs.erase r) (ms.erase m)

/-- Modelled from the spec: `assign(matrix, roles, members)` of the backend
solver, on role indices `0..nR-1` and member indices `0..nM-1`; the result
pairs each assigned role index with its member index. -/
def assign [LinearOrder α] (score : Nat → Nat → α) (nR nM : Nat) : List (Nat × Nat) :=
  greedyAssign score (min nR nM) (List.range nR) (List.range nM)

/-- Strict role-major lexicographic order on (role, member) index pairs:
the order in which `pairProd` enumerates candidate pairs. -/
def pairLt (p q : Nat × Nat) : Prop :=
  p.1 < q.1 ∨ (p.1 = q.1 ∧ p.2 < q.2)

/-- Dot product of two vectors, taken over the common prefix. -/
noncomputable def dotList (a b : List ℝ) : ℝ := (List.zipWith (· * ·) a b).sum

/-- Squared Euclidean norm of a vector. -/
noncomputable def normSq (a : List ℝ) : ℝ := dotList a a

/-- Modelled from the spec: the cosine-similarity cell of the backend
similarity scorer (`role_matcher.py`, not part of the frontend sources).
If either vector has zero norm the similarity is defined as `0.0` — never
NaN and never an error; otherwise it is `dot(a,b)` over the product of the
norms. -/
noncomputable def cosineSim (a b : List ℝ) : ℝ :=
  if normSq a = 0 ∨ normSq b = 0 then 0
  else dotList a b / (Real.sqrt (normSq a) * Real.sqrt (normSq b))

/-- Modelled from the spec: the full similarity matrix, one row per role
vector, one column per member vector. -/
noncomputable def scoreMatrix (roleVecs memberVecs : List (List ℝ)) : List (List ℝ) :=
  roleVecs.map (fun a => memberVecs.map (fun b => cosineSim a b))

/-- Modelled from the spec: the domain amplifier of `role_matcher.py` (not
part of the frontend sources).  When amplification is enabled and the
anchor set is non-empty, every cell is rescaled by a boost factor (whose
exact curve the spec leaves as a free parameter, so it is taken as an
argument); when disabled or anchor-free, the matrix passes through
unchanged. -/
noncomputable def amplify (enabled : Bool) (anchors : List (String × String))
    (boost : Nat → Nat → ℝ) (matrix : List (List ℝ)) : List (List ℝ) :=
  if enabled && !anchors.isEmpty then
    matrix.mapIdx (fun i row => row.mapIdx (fun j v => v * boost i j))
  else matrix

/-- Maximum of a list of reals, as `Math.max(...xs)` over a non-empty
spread (the empty case is unreachable behind the renderer's guard). -/
noncomputable def listMax : List ℝ → ℝ
  | [] => 0
  | x :: xs => xs.foldl max x

/-- The fallback `softmax` of `RoleMatchResults.jsx`, translated clause by
clause: an empty list gives `[]`; otherwise scale by `t || 1`, subtract the
maximum for stability, exponentiate, and divide by the sum guarded by
`|| 1`. -/
noncomputable def softmaxJS (arr : List ℝ) (t : ℝ) : List ℝ :=
  if arr = [] then []
  else
    let scaled := arr.map (fun x => x / (if t = 0 then 1 else t))
    let m := listMax scaled
    let exps := scaled.map (fun x => Real.exp (x - m))
    let sum := exps.sum
    let sum1 := if sum = 0 then 1 else sum
    exps.map (fun e => e / sum1)

/-- One candidate row of a per-role report: member index, raw boosted
score, and softmax display score. -/
structure Candidate where
  member : Nat
  score : ℝ
  soft : ℝ

/-- Modelled from the spec: the unsorted candidate list of one role's
report, pairing each member with its boosted score and the softmax of the
role's score row. -/
noncomputable def roleCandidates (row : List ℝ) (t : ℝ) : List Candidate :=
  let soft := softmaxJS row t
  (List.range row.length).map (fun j => ⟨j, row.getD j 0, soft.getD j 0⟩)

/-- Sort candidates in non-increasing order of softmax score. -/
noncomputable def sortBySoftDesc (cs : List Candidate) : List Candidate :=
  cs.mergeSort (fun c d => decide (d.soft ≤ c.soft))

/-- Modelled from the spec: `build_reports` of the backend
(`role_matcher.py`, not part of the frontend sources) — per role, the
candidate list with raw and softmax scores, sorted descending by softmax
score. -/
noncomputable def buildReports (matrix : List (List ℝ)) (t : ℝ) : List (List Candidate) :=
  matrix.map (fun row => sortBySoftDesc (roleCandidates row t))

/-- A candidate as received by the renderer from a report: `score` and
`soft_score` may be absent or non-numeric, which is modelled by `none`. -/
structure RCand where
  member : List Char
  score : Option ℝ
  softScore : Option ℝ

/-- JavaScript `x || 0` on a number: 0 stays 0, anything else is kept. -/
noncomputable def jsOr0 (x : ℝ) : ℝ := if x = 0 then 0 else x

/-- `rawScores` in `RoleMatchResults.jsx`: non-numeric raw scores become 0. -/
noncomputable def rawScores (cs : List RCand) : List ℝ :=
  cs.map (fun c => c.score.getD 0)

/-- `temperature` in `RoleMatchResults.jsx`: the debug payload's
`softmax_temperature` when present, else `0.6` (the `??` default). -/
noncomputable def rendererTemp (dbg : Option ℝ) : ℝ := dbg.getD 0.6

/-- `soft` in `RoleMatchResults.jsx`: each candidate's numeric `soft_score`
when present, else the fallback softmax value at its index guarded by
`|| 0`. -/
noncomputable def rendererSoft (cs : List RCand) (dbg : Option ℝ) : List ℝ :=
  cs.mapIdx (fun i c =>
    match c.softScore with
    | some x => x
    | none => jsOr0 ((softmaxJS (rawScores cs) (rendererTemp dbg)).getD i 0))

/-- A display row of the renderer: the candidate with its attached `_soft`
value. -/
structure RRow where
  cand : RCand
  rsoft : ℝ

/-- `rows` in `RoleMatchResults.jsx`: attach `_soft` to every candidate and
sort by it in descending order (`.sort((a, b) => b._soft - a._soft)`). -/
noncomputable def rendererRows (cs : List RCand) (dbg : Option ℝ) : List RRow :=
  (cs.mapIdx (fun i c => RRow.mk c ((rendererSoft cs dbg).getD i 0))).mergeSort
    (fun a b => decide (b.rsoft ≤ a.rsoft))

/-- Modelled from the spec: the tuning configuration of a match request
(top-K truncation, softmax temperature, anchor weights). -/
structure MatchConfig where
  topK : Int
  softmaxTemperature : ℚ
  anchorWeights : List ℚ

/-- Modelled from the spec: fail-fast validation of tuning input — a
configuration error on topK ≤ 0, a negative temperature, or malformed
(negative) anchor weights. -/
def validateConfig (cfg : MatchConfig) : Except String Unit :=
  if cfg.topK ≤ 0 then .error "ConfigurationError: topK must be positive"
  else if cfg.softmaxTemperature < 0 then
    .error "ConfigurationError: negative temperature"
  else if cfg.anchorWeights.any (fun w => w < 0) then
    .error "ConfigurationError: malformed anchor weights"
  else .ok ()

/-- Modelled from the spec: the match operation end to end — validate the
configuration first, and only then embed the role and member texts, score,
amplify, and assign.  The second component counts the embedding calls
made; the error branch performs none. -/
noncomputable def runMatch (cfg : MatchConfig) (enabled : Bool)
    (anchors : List (String × String)) (boost : Nat → Nat → ℝ)
    (roleTexts memberTexts : List String) (embed : String → List ℝ) :
    Except String (List (Nat × Nat)) × Nat :=
  match validateConfig cfg with
  | .error e => (.error e, 0)
  | .ok _ =>
    let roleVecs := roleTexts.map embed
    let memberVecs := memberTexts.map embed
    let matrix := amplify enabled anchors boost (scoreMatrix roleVecs memberVecs)
    (.ok (assign (fun i j => (matrix.getD i []).getD j 0)
            roleTexts.length memberTexts.length),
     roleTexts.length + memberTexts.length)

/-- The (stabilized) exponential weights computed inside `softmaxJS`:
scale by the guarded temperature, subtract the maximum, exponentiate. -/
noncomputable def softmaxExps (arr : List ℝ) (t : ℝ) : List ℝ :=
  (arr.map (fun x => x / (if t = 0 then 1 else t))).map
    (fun x => Real.exp (x - listMax (arr.map (fun x => x / (if t = 0 then 1 else t)))))

-- ===== Theorems =====

lemma dedupFirst_sublist [DecidableEq α] : ∀ l : List α, List.Sublist (dedupFirst l) l
  | [] => List.Sublist.refl []
  | a :: l => by
    simpa [dedupFirst] using
      ((List.filter_sublist (dedupFirst l)).trans (dedupFirst_sublist l)).cons₂ a

lemma mem_dedupFirst [DecidableEq α] : ∀ {l : List α} {x : α}, x ∈ dedupFirst l ↔ x ∈ l := by
  intro l
  induction l with
  | nil => simp [dedupFirst]
  | cons a l ih =>
    intro x
    by_cases hxa : x = a
    · simp [dedupFirst, hxa]
    · simp [dedupFirst, hxa, List.mem_filter, ih]

lemma nodup_dedupFirst [DecidableEq α] : ∀ l : List α, (dedupFirst l).Nodup
  | [] => List.nodup_nil
  | a :: l => by
    refine List.nodup_cons.mpr ⟨?_, (nodup_dedupFirst l).filter _⟩
    intro hmem
    rcases List.mem_filter.mp hmem with ⟨-, hne⟩
    simp at hne

lemma dropWhile_prefix_stable {p : α → Bool} {l v : List α}
    (hl : l.dropWhile p = l) (hv : v <+: l) : v.dropWhile p = v := by
  cases v with
  | nil => simp
  | cons a v =>
    rcases hv with ⟨t, ht⟩
    subst ht
    simp only [List.cons_append] at hl
    rw [List.dropWhile_cons] at hl ⊢
    by_cases hpa : p a = true
    · rw [if_pos hpa] at hl
      have hlen := (List.dropWhile_sublist (l := v ++ t) p).length_le
      rw [hl] at hlen
      simp at hlen
    · rw [if_neg hpa]

lemma trimChars_eq_rdropWhile (s : List Char) :
    trimChars s = List.rdropWhile Char.isWhitespace (s.dropWhile Char.isWhitespace) := rfl

lemma trimChars_idem (s : List Char) : trimChars (trimChars s) = trimChars s := by
  rw [trimChars_eq_rdropWhile, trimChars_eq_rdropWhile]
  have h1 : (List.rdropWhile Char.isWhitespace
      (s.dropWhile Char.isWhitespace)).dropWhile Char.isWhitespace =
      List.rdropWhile Char.isWhitespace (s.dropWhile Char.isWhitespace) :=
    dropWhile_prefix_stable (List.dropWhile_idempotent Char.isWhitespace s)
      ( List.rdropWhile_prefix Char.isWhitespace (s.dropWhile Char.isWhitespace))
  rw [h1, List.rdropWhile_idempotent]

lemma uniqueStrings_isCanonical (l : List JSVal) :
    IsCanonicalFrom l (uniqueStrings l) := by
  refine ⟨nodup_dedupFirst _, dedupFirst_sublist _, fun s => mem_dedupFirst, ?_⟩
  intro s hs
  have hcanon : s ∈ canonStrings l := mem_dedupFirst.mp hs
  rcases List.mem_filter.mp hcanon with ⟨hmap, hne⟩
  rcases List.mem_map.mp hmap with ⟨v, -, hv⟩
  constructor
  · intro hnil
    rw [hnil] at hne
    simp [List.isEmpty] at hne
  · rw [← hv, trimChars_idem]

/-- C9: for every member record arriving at the overview boundary, each
canonicalized display category (languages, skills, keywords) is a
duplicate-free list of non-empty, trimmed strings that preserves
first-occurrence order, regardless of which aliased field shapes the input
record used. -/
theorem member_categories_canonical (m : JSVal) :
    IsCanonicalFrom (firstNonEmptyArray m languagesPaths) (memberLanguages m) ∧
    IsCanonicalFrom
      (firstNonEmptyArray m ["skills".data] ++
       firstNonEmptyArray m ["technical_skills".data] ++
       firstNonEmptyArray m ["technicalSkills".data] ++
       firstNonEmptyArray m ["extracted.skills.technical".data] ++
       firstNonEmptyArray m ["resume_skills.technical".data] ++
       firstNonEmptyArray m ["github_skills".data] ++
       firstNonEmptyArray m ["extracted.skills".data])
      (memberSkills m) ∧
    IsCanonicalFrom
      (firstNonEmptyArray m ["keywords".data] ++
       firstNonEmptyArray m ["notable_keywords".data] ++
       firstNonEmptyArray m ["notableKeywords".data] ++
       firstNonEmptyArray m ["extracted.keywords".data] ++
       firstNonEmptyArray m ["resume_keywords".data])
      (memberKeywords m) :=
  ⟨uniqueStrings_isCanonical _, uniqueStrings_isCanonical _, uniqueStrings_isCanonical _⟩

/-- C10: `normalizeMember` consults an aliased fallback field only when the
primary field is absent or falsy, and a present-but-empty array on the
primary key is kept as-is (an empty array is truthy in JavaScript): on
`emptySkillsMember` the normalized skills are the empty array even though
`technical_skills` is non-empty, unlike the overview's
first-non-empty-path lookup, which skips the empty array and surfaces
`Rust`. -/
theorem tif_primary_precedence :
    (∀ m : JSVal, jsTruthy (jsGet m "skills".data) = true →
      tifSkills m = jsGet m "skills".data) ∧
    tifSkills emptySkillsMember = JSVal.arr [] ∧
    memberSkills emptySkillsMember = ["Rust".data] := by
  refine ⟨?_, ?_, ?_⟩
  · intro m hm
    simp [tifSkills, jsOr, hm]
  · rfl
  · rfl

/-- Witness for `tif_primary_precedence`: its universally quantified part
applied to a record with a truthy primary skills array. -/
theorem tif_primary_precedence_witness :
    tifSkills (JSVal.obj [("skills".data, JSVal.arr [JSVal.str "Go".data])]) =
      jsGet (JSVal.obj [("skills".data, JSVal.arr [JSVal.str "Go".data])]) "skills".data :=
  tif_primary_precedence.1 _ rfl

/-- C5: when domain amplification is disabled or the anchor set is empty,
`amplify` is the identity: the output matrix equals the input matrix
exactly, cell for cell. -/
theorem amplify_identity_when_disabled (enabled : Bool)
    (anchors : List (String × String)) (boost : Nat → Nat → ℝ)
    (matrix : List (List ℝ)) (h : enabled = false ∨ anchors = []) :
    amplify enabled anchors boost matrix = matrix := by
  rcases h with h | h <;> simp [amplify, h]

/-- Witness for `amplify_identity_when_disabled`: a disabled boost leaves a
concrete matrix untouched. -/
theorem amplify_identity_when_disabled_witness :
    amplify false [("frontend", "react css html")] (fun _ _ => 2)
      [[(1 : ℝ), 0.5], [0.25, 0]] = [[(1 : ℝ), 0.5], [0.25, 0]] :=
  amplify_identity_when_disabled false _ _ _ (Or.inl rfl)

/-- C6: whenever either vector of a similarity cell has zero norm, that
cell of the score matrix is exactly 0 — the scorer is a total function on
real vectors (no NaN, no exception), including the degenerate embedding of
an empty normalization string. -/
theorem zero_norm_similarity_zero (roleVecs memberVecs : List (List ℝ))
    (i j : Nat) (hi : i < roleVecs.length) (hj : j < memberVecs.length)
    (h : normSq (roleVecs.getD i []) = 0 ∨ normSq (memberVecs.getD j []) = 0) :
    ((scoreMatrix roleVecs memberVecs).getD i []).getD j 0 = 0 := by
  have hcell : ((scoreMatrix roleVecs memberVecs).getD i []).getD j 0 =
      cosineSim (roleVecs.getD i []) (memberVecs.getD j []) := by
    simp [scoreMatrix, List.getD_eq_getElem?_getD, List.getElem?_map,
      List.getElem?_eq_getElem hi, List.getElem?_eq_getElem hj]
  rw [hcell, cosineSim, if_pos h]

/-- C7: a match request with invalid tuning input (topK ≤ 0, negative
temperature, or malformed anchor weights) fails fast with a configuration
error and makes zero embedding calls; and the Top-K control of the
overview only ever emits integers in [1, 100], with non-numeric input
mapped to 10 — so a topK ≤ 0 is never emitted by the UI. -/
theorem invalid_config_fails_fast :
    (∀ (cfg : MatchConfig) (enabled : Bool) (anchors : List (String × String))
        (boost : Nat → Nat → ℝ) (roleTexts memberTexts : List String)
        (embed : String → List ℝ),
      (cfg.topK ≤ 0 ∨ cfg.softmaxTemperature < 0 ∨ ∃ w ∈ cfg.anchorWeights, w < 0) →
      ∃ e, runMatch cfg enabled anchors boost roleTexts memberTexts embed =
        (Except.error e, 0)) ∧
    (∀ s : List Char, 1 ≤ topKOnChange s ∧ topKOnChange s ≤ 100 ∧
      (jsParseInt (if s.isEmpty then "10".data else s) = none →
        topKOnChange s = 10)) := by
  constructor
  · intro cfg enabled anchors boost roleTexts memberTexts embed h
    have hv : ∃ e, validateConfig cfg = .error e := by
      unfold validateConfig
      by_cases h1 : cfg.topK ≤ 0
      · exact ⟨_, by rw [if_pos h1]⟩
      by_cases h2 : cfg.softmaxTemperature < 0
      · exact ⟨_, by rw [if_neg h1, if_pos h2]⟩
      have h3 : cfg.anchorWeights.any (fun w => w < 0) = true := by
        rcases h with h | h | ⟨w, hw, hww⟩
        · exact absurd h h1
        · exact absurd h h2
        · simp only [List.any_eq_true, decide_eq_true_eq]
          exact ⟨w, hw, hww⟩
      exact ⟨_, by rw [if_neg h1, if_neg h2, if_pos h3]⟩
    rcases hv with ⟨e, he⟩
    exact ⟨e, by simp [runMatch, he]⟩
  · intro s
    rcases hp : jsParseInt (if s.isEmpty then "10".data else s) with _ | v
    · refine ⟨?_, ?_, fun _ => ?_⟩ <;> simp only [topKOnChange, hp] <;> norm_num
    · refine ⟨?_, ?_, fun hc => ?_⟩
      · simp only [topKOnChange, hp]
        show 1 ≤ 1 ⊔ 100 ⊓ v
        exact le_max_left 1 _
      · simp only [topKOnChange, hp]
        show 1 ⊔ 100 ⊓ v ≤ 100
        exact max_le (by norm_num) (min_le_left 100 v)
      · exact absurd hc (by simp)

/-- Witness for `invalid_config_fails_fast`: a zero topK is rejected with
no embedding calls, and the clamp applied to non-numeric text gives a
value in range. -/
theorem invalid_config_fails_fast_witness :
    (∃ e, runMatch ⟨0, 1, []⟩ true [("ml", "pytorch")] (fun _ _ => 1)
        ["Core skills: Go"] ["Go SQL"] (fun _ => [1]) = (Except.error e, 0)) ∧
    1 ≤ topKOnChange "abc".data ∧ topKOnChange "abc".data ≤ 100 :=
  ⟨invalid_config_fails_fast.1 ⟨0, 1, []⟩ true [("ml", "pytorch")] (fun _ _ => 1)
      ["Core skills: Go"] ["Go SQL"] (fun _ => [1]) (Or.inl (by decide)),
   (invalid_config_fails_fast.2 "abc".data).1,
   (invalid_config_fails_fast.2 "abc".data).2.1⟩

lemma length_softmaxJS (arr : List ℝ) (t : ℝ) :
    (softmaxJS arr t).length = arr.length := by
  unfold softmaxJS
  split
  · simp [*]
  · simp

lemma jsOr0_eq (x : ℝ) : jsOr0 x = x := by
  unfold jsOr0
  split
  · exact Eq.symm (by assumption)
  · rfl

/-- C8: when no candidate carries a numeric `soft_score` and the debug
payload carries no `softmax_temperature`, the renderer computes the
fallback softmax of the raw scores at the default temperature `0.6`. -/
theorem renderer_default_temperature (cs : List RCand)
    (hnone : ∀ c ∈ cs, c.softScore = none) :
    rendererTemp none = (0.6 : ℝ) ∧
    rendererSoft cs none = softmaxJS (rawScores cs) (0.6 : ℝ) := by
  refine ⟨rfl, ?_⟩
  have hlen : (rendererSoft cs none).length = cs.length := by
    simp [rendererSoft]
  have hlen2 : (softmaxJS (rawScores cs) (0.6 : ℝ)).length = cs.length := by
    rw [length_softmaxJS]
    simp [rawScores]
  apply List.ext_getElem (by rw [hlen, hlen2])
  intro i h1 h2
  have hi : i < cs.length := by rw [hlen] at h1; exact h1
  have hsm : i < (softmaxJS (rawScores cs) (rendererTemp none)).length := by
    rw [length_softmaxJS]
    simpa [rawScores] using hi
  have hcs : cs[i].softScore = none := hnone _ (cs.getElem_mem hi)
  simp [rendererSoft, hcs, jsOr0_eq, List.getD_eq_getElem?_getD,
    List.getElem?_eq_getElem hsm, List.getElem?_eq_getElem h2, rendererTemp]

/-- Witness for `renderer_default_temperature`: a concrete single-candidate
report with no backend soft scores and no configured temperature. -/
theorem renderer_default_temperature_witness :
    rendererTemp none = (0.6 : ℝ) ∧
    rendererSoft [⟨"Ann".data, some 1, none⟩] none =
      softmaxJS (rawScores [⟨"Ann".data, some 1, none⟩]) (0.6 : ℝ) :=
  renderer_default_temperature [⟨"Ann".data, some 1, none⟩] (by simp)

lemma sum_map_div (l : List ℝ) (c : ℝ) :
    (l.map (fun e => e / c)).sum = l.sum / c := by
  induction l with
  | nil => simp
  | cons a l ih => simp [ih, add_div]

lemma map_getD_range (l : List ℝ) (n : Nat) (h : l.length = n) :
    (List.range n).map (fun j => l.getD j 0) = l := by
  apply List.ext_getElem (by simp [h])
  intro i h1 h2
  simp only [List.getElem_map, List.getElem_range]
  exact List.getD_eq_getElem l 0 h2

lemma softmaxJS_eq (arr : List ℝ) (t : ℝ) :
    softmaxJS arr t = if arr = [] then [] else
      (softmaxExps arr t).map (fun e => e /
        (if (softmaxExps arr t).sum = 0 then 1 else (softmaxExps arr t).sum)) := rfl

lemma softmaxExps_pos (arr : List ℝ) (t : ℝ) :
    ∀ y ∈ softmaxExps arr t, 0 < y := by
  intro y hy
  rcases List.mem_map.mp hy with ⟨x, -, hx⟩
  rw [← hx]
  exact Real.exp_pos _

lemma softmaxExps_sum_pos (arr : List ℝ) (t : ℝ) (harr : arr ≠ []) :
    0 < (softmaxExps arr t).sum := by
  refine List.sum_pos _ (softmaxExps_pos arr t) ?_
  simp [softmaxExps, harr]

lemma softmaxJS_bounds_sum (arr : List ℝ) (t : ℝ) (harr : arr ≠ []) :
    (∀ y ∈ softmaxJS arr t, 0 ≤ y ∧ y ≤ 1) ∧ (softmaxJS arr t).sum = 1 := by
  have hsum := softmaxExps_sum_pos arr t harr
  rw [softmaxJS_eq, if_neg harr, if_neg (ne_of_gt hsum)]
  constructor
  · intro y hy
    rcases List.mem_map.mp hy with ⟨e, he, hye⟩
    rw [← hye]
    refine ⟨div_nonneg (le_of_lt (softmaxExps_pos arr t e he)) (le_of_lt hsum), ?_⟩
    rw [div_le_one hsum]
    exact List.single_le_sum (fun x hx => le_of_lt (softmaxExps_pos arr t x hx)) e he
  · rw [sum_map_div]
    exact div_self (ne_of_gt hsum)

lemma map_soft_roleCandidates (row : List ℝ) (t : ℝ) :
    (roleCandidates row t).map Candidate.soft = softmaxJS row t := by
  apply List.ext_getElem
  · simp [roleCandidates, length_softmaxJS]
  · intro i h1 h2
    simp [roleCandidates, List.getD_eq_getElem?_getD, List.getElem?_eq_getElem h2]

/-- C3: for every role whose candidate list is non-empty, the soft scores
across its report candidates form a valid softmax distribution (each in
`[0, 1]`, summing to one); and the renderer's fallback `softmax`, applied
to any non-empty list of real scores with any positive temperature,
returns a list of the same length whose elements are in `[0, 1]` and sum
to one. -/
theorem softmax_valid_distribution :
    (∀ (arr : List ℝ) (t : ℝ), arr ≠ [] → 0 < t →
      (softmaxJS arr t).length = arr.length ∧
      (∀ y ∈ softmaxJS arr t, 0 ≤ y ∧ y ≤ 1) ∧ (softmaxJS arr t).sum = 1) ∧
    (∀ (matrix : List (List ℝ)) (t : ℝ) (rep : List Candidate), 0 < t →
      rep ∈ buildReports matrix t → rep ≠ [] →
      (∀ c ∈ rep, 0 ≤ c.soft ∧ c.soft ≤ 1) ∧ (rep.map Candidate.soft).sum = 1) := by
  constructor
  · intro arr t harr ht
    exact ⟨length_softmaxJS arr t, (softmaxJS_bounds_sum arr t harr).1,
      (softmaxJS_bounds_sum arr t harr).2⟩
  · intro matrix t rep ht hrep hne
    rcases List.mem_map.mp (by simpa [buildReports] using hrep) with ⟨row, hrow, hrepeq⟩
    subst hrepeq
    have hrowne : row ≠ [] := by
      intro h0
      apply hne
      rw [h0]
      simp [sortBySoftDesc, roleCandidates]
    have hperm : (sortBySoftDesc (roleCandidates row t)).Perm (roleCandidates row t) :=
      List.mergeSort_perm _ _
    constructor
    · intro c hc
      have hc2 : c ∈ roleCandidates row t := by
        simpa [sortBySoftDesc] using hc
      have hsoft : c.soft ∈ softmaxJS row t := by
        rw [← map_soft_roleCandidates row t]
        exact List.mem_map_of_mem _ hc2
      exact (softmaxJS_bounds_sum row t hrowne).1 _ hsoft
    · calc ((sortBySoftDesc (roleCandidates row t)).map Candidate.soft).sum
          = ((roleCandidates row t).map Candidate.soft).sum :=
            (hperm.map Candidate.soft).sum_eq
        _ = (softmaxJS row t).sum := by rw [map_soft_roleCandidates]
        _ = 1 := (softmaxJS_bounds_sum row t hrowne).2

/-- Witness for `softmax_valid_distribution`: the fallback softmax on two
concrete scores, and the report built for a concrete one-role, one-member
matrix. -/
theorem softmax_valid_distribution_witness :
    ((softmaxJS [(0 : ℝ), 1] 1).length = 2 ∧
     (∀ y ∈ softmaxJS [(0 : ℝ), 1] 1, 0 ≤ y ∧ y ≤ 1) ∧
     (softmaxJS [(0 : ℝ), 1] 1).sum = 1) ∧
    ((∀ c ∈ sortBySoftDesc (roleCandidates [(0 : ℝ)] 1), 0 ≤ c.soft ∧ c.soft ≤ 1) ∧
     ((sortBySoftDesc (roleCandidates [(0 : ℝ)] 1)).map Candidate.soft).sum = 1) :=
  ⟨softmax_valid_distribution.1 [(0 : ℝ), 1] 1 (by simp) (by norm_num),
   softmax_valid_distribution.2 [[(0 : ℝ)]] 1 (sortBySoftDesc (roleCandidates [(0 : ℝ)] 1))
     (by norm_num) (by simp [buildReports])
     (by
       intro h0
       have hlen : (sortBySoftDesc (roleCandidates [(0 : ℝ)] 1)).length = 1 := by
         simp [sortBySoftDesc, roleCandidates]
       rw [h0] at hlen
       simp at hlen)⟩

lemma pairwise_mergeSort_key (key : α → ℝ) (l : List α) :
    (l.mergeSort (fun a b => decide (key b ≤ key a))).Pairwise
      (fun a b => key b ≤ key a) := by
  have h := @List.sorted_mergeSort α (fun a b => decide (key b ≤ key a))
    (fun a b c hab hbc => by
      simp only [decide_eq_true_eq] at hab hbc ⊢
      exact le_trans hbc hab)
    (fun a b => by
      simp only [Bool.or_eq_true, decide_eq_true_eq]
      exact le_total (key b) (key a))
    l
  exact h.imp (fun hab => by simpa using hab)

/-- C4: every candidate list produced by the match operation's report
builder is sorted in non-increasing order of `soft_score`, and the rows the
renderer displays are likewise sorted in descending order of their attached
soft score, so no re-sorting is needed. -/
theorem reports_candidates_sorted_desc :
    (∀ (matrix : List (List ℝ)) (t : ℝ) (rep : List Candidate),
      rep ∈ buildReports matrix t → rep.Sorted (fun c d => d.soft ≤ c.soft)) ∧
    (∀ (cs : List RCand) (dbg : Option ℝ),
      (rendererRows cs dbg).Sorted (fun a b => b.rsoft ≤ a.rsoft)) := by
  constructor
  · intro matrix t rep hrep
    rcases List.mem_map.mp (by simpa [buildReports] using hrep) with ⟨row, -, hrepeq⟩
    subst hrepeq
    exact pairwise_mergeSort_key Candidate.soft (roleCandidates row t)
  · intro cs dbg
    exact pairwise_mergeSort_key RRow.rsoft
      (cs.mapIdx (fun i c => RRow.mk c ((rendererSoft cs dbg).getD i 0)))

/-- Witness for `reports_candidates_sorted_desc`: the report built from a
concrete one-role, two-member matrix is sorted descending. -/
theorem reports_candidates_sorted_desc_witness :
    (sortBySoftDesc (roleCandidates [(0 : ℝ), 1] 1)).Sorted
      (fun c d => d.soft ≤ c.soft) :=
  reports_candidates_sorted_desc.1 [[(0 : ℝ), 1]] 1
    (sortBySoftDesc (roleCandidates [(0 : ℝ), 1] 1)) (by simp [buildReports])

/-- Witness for `zero_norm_similarity_zero`: the cell of a concrete matrix
whose role vector is the zero vector. -/
theorem zero_norm_similarity_zero_witness :
    ((scoreMatrix [[(0 : ℝ), 0]] [[(1 : ℝ), 2]]).getD 0 []).getD 0 0 = 0 :=
  zero_norm_similarity_zero [[(0 : ℝ), 0]] [[(1 : ℝ), 2]] 0 0 (by simp) (by simp)
    (Or.inl (by norm_num [normSq, dotList]))

lemma pickBest_none [LinearOrder α] (score : Nat → Nat → α) :
    ∀ {ps : List (Nat × Nat)}, pickBest score ps = none → ps = []
  | [], _ => rfl
  | q :: ps, h => by
    exfalso
    rcases hb : pickBest score ps with _ | b
    · simp [pickBest, hb] at h
    · simp only [pickBest, hb] at h
      by_cases hlt : score q.1 q.2 < score b.1 b.2
      · rw [if_pos hlt] at h
        simp at h
      · rw [if_neg hlt] at h
        simp at h

lemma pickBest_mem [LinearOrder α] (score : Nat → Nat → α) :
    ∀ {ps : List (Nat × Nat)} {p : Nat × Nat},
      pickBest score ps = some p → p ∈ ps
  | [], p, h => by simp [pickBest] at h
  | q :: ps, p, h => by
    rcases hb : pickBest score ps with _ | b
    · simp only [pickBest, hb] at h
      injection h with h
      exact h ▸ List.mem_cons_self q ps
    · simp only [pickBest, hb] at h
      by_cases hlt : score q.1 q.2 < score b.1 b.2
      · rw [if_pos hlt] at h
        injection h with h
        exact h ▸ List.mem_cons_of_mem q (pickBest_mem score hb)
      · rw [if_neg hlt] at h
        injection h with h
        exact h ▸ List.mem_cons_self q ps

lemma pickBest_firstMax [LinearOrder α] (score : Nat → Nat → α) :
    ∀ {ps : List (Nat × Nat)} {p : Nat × Nat}, pickBest score ps = some p →
      (∀ q ∈ ps, score q.1 q.2 ≤ score p.1 p.2) ∧
      ∃ l1 l2, ps = l1 ++ p :: l2 ∧ ∀ q ∈ l1, score q.1 q.2 < score p.1 p.2
  | [], p, h => by simp [pickBest] at h
  | q :: ps, p, h => by
    rcases hb : pickBest score ps with _ | b
    · have hnil := pickBest_none score hb
      subst hnil
      simp only [pickBest] at h
      injection h with h
      subst h
      exact ⟨by simp, [], [], rfl, by simp⟩
    · simp only [pickBest, hb] at h
      have ih := pickBest_firstMax score hb
      by_cases hlt : score q.1 q.2 < score b.1 b.2
      · rw [if_pos hlt] at h
        injection h with h
        subst h
        rcases ih.2 with ⟨l1, l2, hsplit, hl1⟩
        refine ⟨?_, q :: l1, l2, by rw [hsplit, List.cons_append], ?_⟩
        · intro x hx
          rcases List.mem_cons.mp hx with hx | hx
          · exact hx ▸ le_of_lt hlt
          · exact ih.1 x hx
        · intro x hx
          rcases List.mem_cons.mp hx with hx | hx
          · exact hx ▸ hlt
          · exact hl1 x hx
      · rw [if_neg hlt] at h
        injection h with h
        subst h
        refine ⟨?_, [], ps, rfl, by simp⟩
        intro x hx
        rcases List.mem_cons.mp hx with hx | hx
        · exact hx ▸ le_refl _
        · exact le_trans (ih.1 x hx) (not_lt.mp hlt)

lemma mem_pairProd : ∀ (rs ms : List Nat) (p : Nat × Nat),
    p ∈ pairProd rs ms ↔ p.1 ∈ rs ∧ p.2 ∈ ms
  | [], ms, p => by simp [pairProd]
  | r :: rs, ms, p => by
    rcases p with ⟨a, b⟩
    simp only [pairProd, List.mem_append, List.mem_map, List.mem_cons,
      mem_pairProd rs ms ⟨a, b⟩]
    constructor
    · rintro (⟨m, hm, heq⟩ | ⟨h1, h2⟩)
      · injection heq with h1 h2
        exact ⟨Or.inl h1.symm, h2 ▸ hm⟩
      · exact ⟨Or.inr h1, h2⟩
    · rintro ⟨h1 | h1, h2⟩
      · exact Or.inl ⟨b, h2, by rw [h1]⟩
      · exact Or.inr ⟨h1, h2⟩

lemma pairProd_pairwise : ∀ (rs ms : List Nat), rs.Pairwise (· < ·) →
    ms.Pairwise (· < ·) → (pairProd rs ms).Pairwise pairLt
  | [], ms, _, _ => by simp [pairProd]
  | r :: rs, ms, hrs, hms => by
    rw [pairProd]
    apply List.pairwise_append.mpr
    refine ⟨?_, pairProd_pairwise rs ms (List.Pairwise.of_cons hrs) hms, ?_⟩
    · rw [List.pairwise_map]
      exact hms.imp (fun h => Or.inr ⟨rfl, h⟩)
    · intro x hx y hy
      rcases List.mem_map.mp hx with ⟨m, hm, rfl⟩
      have hy2 := (mem_pairProd rs ms y).mp hy
      exact Or.inl ((List.pairwise_cons.mp hrs).1 _ hy2.1)

lemma greedyAssign_spec [LinearOrder α] (score : Nat → Nat → α) :
    ∀ (fuel : Nat) (rs ms : List Nat), rs.Nodup → ms.Nodup →
      (∀ p ∈ greedyAssign score fuel rs ms, p.1 ∈ rs ∧ p.2 ∈ ms) ∧
      ((greedyAssign score fuel rs ms).map Prod.fst).Nodup ∧
      ((greedyAssign score fuel rs ms).map Prod.snd).Nodup ∧
      (greedyAssign score fuel rs ms).length ≤ fuel
  | 0, rs, ms, _, _ => by simp [greedyAssign]
  | fuel + 1, rs, ms, hrs, hms => by
    rcases hpick : pickBest score (pairProd rs ms) with _ | ⟨r, m⟩
    · simp [greedyAssign, hpick]
    · have hmem := (mem_pairProd rs ms (r, m)).mp (pickBest_mem score hpick)
      have ih := greedyAssign_spec score fuel (rs.erase r) (ms.erase m)
        (hrs.erase r) (hms.erase m)
      have hunfold : greedyAssign score (fuel + 1) rs ms =
          (r, m) :: greedyAssign score fuel (rs.erase r) (ms.erase m) := by
        simp [greedyAssign, hpick]
      rw [hunfold]
      refine ⟨?_, ?_, ?_, ?_⟩
      · intro p hp
        rcases List.mem_cons.mp hp with hp | hp
        · exact hp ▸ hmem
        · exact ⟨List.mem_of_mem_erase (ih.1 p hp).1,
            List.mem_of_mem_erase (ih.1 p hp).2⟩
      · rw [List.map_cons]
        refine List.nodup_cons.mpr ⟨?_, ih.2.1⟩
        intro hr
        rcases List.mem_map.mp hr with ⟨p, hp, hpr⟩
        have : p.1 ∈ rs.erase r := (ih.1 p hp).1
        rw [hpr] at this
        exact ((List.Nodup.mem_erase_iff hrs).mp this).1 rfl
      · rw [List.map_cons]
        refine List.nodup_cons.mpr ⟨?_, ih.2.2.1⟩
        intro hm
        rcases List.mem_map.mp hm with ⟨p, hp, hpm⟩
        have : p.2 ∈ ms.erase m := (ih.1 p hp).2
        rw [hpm] at this
        exact ((List.Nodup.mem_erase_iff hms).mp this).1 rfl
      · simpa using Nat.succ_le_succ ih.2.2.2

/-- C1: the greedy assignment is one-to-one — no role index repeats, no
member index repeats (so distinct roles get distinct members and a member
is the value of at most one role), and at most `min nR nM` pairs are
committed, so with fewer members than roles the extra roles stay
unassigned rather than sharing a member. -/
theorem assign_one_to_one [LinearOrder α] (score : Nat → Nat → α) (nR nM : Nat) :
    ((assign score nR nM).map Prod.fst).Nodup ∧
    ((assign score nR nM).map Prod.snd).Nodup ∧
    (assign score nR nM).length ≤ min nR nM := by
  have h := greedyAssign_spec score (min nR nM) (List.range nR) (List.range nM)
    (List.nodup_range nR) (List.nodup_range nM)
  exact ⟨h.2.1, h.2.2.1, h.2.2.2⟩

/-- C2: the solver is deterministic — pointwise-equal score matrices give
the identical assignment — and every committed pair maximizes the score
over all remaining (role, member) pairs, with ties broken in favor of the
earliest role index and then the earliest member index. -/
theorem assign_deterministic_tiebreak [LinearOrder α] :
    (∀ (s1 s2 : Nat → Nat → α) (nR nM : Nat), (∀ i j, s1 i j = s2 i j) →
      assign s1 nR nM = assign s2 nR nM) ∧
    (∀ (score : Nat → Nat → α) (fuel : Nat) (rs ms : List Nat) (r m : Nat)
        (rest : List (Nat × Nat)),
      rs.Pairwise (· < ·) → ms.Pairwise (· < ·) →
      greedyAssign score fuel rs ms = (r, m) :: rest →
      r ∈ rs ∧ m ∈ ms ∧
      (∀ q1 ∈ rs, ∀ q2 ∈ ms, score q1 q2 ≤ score r m) ∧
      (∀ q1 ∈ rs, ∀ q2 ∈ ms, score q1 q2 = score r m →
        r < q1 ∨ (r = q1 ∧ m ≤ q2))) := by
  constructor
  · intro s1 s2 nR nM h
    have : s1 = s2 := funext (fun i => funext (fun j => h i j))
    rw [this]
  · intro score fuel rs ms r m rest hrs hms heq
    match fuel with
    | 0 => simp [greedyAssign] at heq
    | fuel + 1 =>
      rcases hpick : pickBest score (pairProd rs ms) with _ | p
      · rw [greedyAssign, hpick] at heq
        simp at heq
      · rw [greedyAssign, hpick] at heq
        have hp : p = (r, m) := by
          have := congrArg List.head? heq
          simpa using this
        subst hp
        have hmem := (mem_pairProd rs ms (r, m)).mp (pickBest_mem score hpick)
        have hfm := pickBest_firstMax score hpick
        refine ⟨hmem.1, hmem.2, ?_, ?_⟩
        · intro q1 h1 q2 h2
          exact hfm.1 (q1, q2) ((mem_pairProd rs ms (q1, q2)).mpr ⟨h1, h2⟩)
        · intro q1 h1 q2 h2 hscore
          rcases hfm.2 with ⟨l1, l2, hsplit, hl1⟩
          have hqmem : (q1, q2) ∈ pairProd rs ms :=
            (mem_pairProd rs ms (q1, q2)).mpr ⟨h1, h2⟩
          rw [hsplit] at hqmem
          rcases List.mem_append.mp hqmem with hq | hq
          · exact absurd hscore (ne_of_lt (hl1 (q1, q2) hq))
          · rcases List.mem_cons.mp hq with hq | hq
            · injection hq with ha hb
              exact Or.inr ⟨ha.symm, le_of_eq hb.symm⟩
            · have hpw := pairProd_pairwise rs ms hrs hms
              rw [hsplit] at hpw
              have hcons := (List.pairwise_append.mp hpw).2.1
              have hlt := (List.pairwise_cons.mp hcons).1 (q1, q2) hq
              rcases hlt with hlt | ⟨heq1, hlt2⟩
              · exact Or.inl hlt
              · exact Or.inr ⟨heq1, le_of_lt hlt2⟩

/-- Witness for `assign_deterministic_tiebreak`: two pointwise-equal score
functions give the same assignment, and on an all-ties 2x2 matrix the first
committed pair is role 0 with member 0. -/
theorem assign_deterministic_tiebreak_witness :
    assign (fun i j => ((i : ℚ) + j)) 2 2 = assign (fun i j => ((j : ℚ) + i)) 2 2 ∧
    (0 ∈ [0, 1] ∧ 0 ∈ [0, 1] ∧
     (∀ q1 ∈ [0, 1], ∀ q2 ∈ [0, 1],
        (fun _ _ => (0 : ℚ)) q1 q2 ≤ (fun _ _ => (0 : ℚ)) 0 0) ∧
     (∀ q1 ∈ [0, 1], ∀ q2 ∈ [0, 1],
        (fun _ _ => (0 : ℚ)) q1 q2 = (fun _ _ => (0 : ℚ)) 0 0 →
        0 < q1 ∨ (0 = q1 ∧ 0 ≤ q2))) :=
  ⟨assign_deterministic_tiebreak.1 _ _ 2 2 (fun i j => add_comm (i : ℚ) j),
   assign_deterministic_tiebreak.2 (fun _ _ => (0 : ℚ)) 2 [0, 1] [0, 1] 0 0 [(1, 1)]
     (by decide) (by decide) (by decide)⟩
